import Mathlib

/-
Verification development for `charm_upgrade.py`, a charm-upgrade planning
helper.  The Python program maintains three JSON documents
(branch → commit, revision → commit, branch → revision per charm), builds
them with two remote fetchers and a downward revision-reconciliation walk,
and renders a report.  Below, Python dicts are embedded as insertion-ordered
association lists with unique keys, Python exceptions as an `Except` error
value, and the two remote fetchers as oracle parameters.
-/

set_option maxHeartbeats 1000000

/-- Python exceptions that the modelled code can raise:
`int(...)` raising `ValueError` and dict indexing raising `KeyError`. -/
inductive PyErr where
  | valueError
  | keyError
  deriving DecidableEq, Repr

/-- A Python `dict` with string keys and string values (e.g. revision → commit),
embedded as an insertion-ordered association list. -/
abbrev Dict := List (String × String)

/-- A persisted JSON document: charm → inner dict. -/
abbrev Doc := List (String × Dict)

/-- `d.get(k)` / `d[k]` lookup on an association list (first match). -/
def alget {α : Type} : List (String × α) → String → Option α
  | [], _ => none
  | p :: rest, k => if p.1 == k then some p.2 else alget rest k

/-- `d[k] = v` on an association list: replace in place, else append
(matches Python dict insertion-order semantics). -/
def alset {α : Type} : List (String × α) → String → α → List (String × α)
  | [], k, v => [(k, v)]
  | p :: rest, k, v => if p.1 == k then (k, v) :: rest else p :: alset rest k v

/-- `k in d` for a Python dict. -/
def almem {α : Type} (d : List (String × α)) (k : String) : Bool :=
  (alget d k).isSome

/-- Python `int(s)`: an optional minus sign followed by at least one digit;
anything else (in particular the empty string) raises `ValueError`,
modelled as `none`. -/
def pyInt (s : String) : Option Int :=
  match s.data with
  | '-' :: rest =>
    if rest ≠ [] ∧ rest.all Char.isDigit then
      some (-(rest.foldl (fun acc c => acc * 10 + (c.toNat - 48)) 0 : Nat))
    else none
  | chars =>
    if chars ≠ [] ∧ chars.all Char.isDigit then
      some ((chars.foldl (fun acc c => acc * 10 + (c.toNat - 48)) 0 : Nat))
    else none

/- ------------------------------------------------------------------
Static catalogs and upgrade order (source lines 21-79).
------------------------------------------------------------------ -/

def NA : String := "--"

def ORDER_MAX : Nat := 999

def BRANCHES : List String := ["19.04", "19.07", "19.10", "20.02", "20.05"]

def OPENSTACK_CHAMRS : List String := [
  "barbican-vault", "barbican",
  "keystone-ldap", "keystone",
  "rabbitmq-server",
  "nova-cloud-controller",
  "nova-compute",
  "neutron-openvswitch",
  "neutron-api",
  "neutron-gateway",
  "octavia-dashboard", "octavia",
  "cinder-backup", "cinder-ceph", "cinder",
  "glance",
  "heat",
  "aodh",
  "swift-proxy", "swift-storage",
  "ceph-mon", "ceph-radosgw", "ceph-osd",
  "ceilometer-agent", "ceilometer",
  "gnocchi",
  "designate-bind", "designate",
  "openstack-dashboard",
  "hacluster",
  "vault"]

def LMA_CHARMS : List String := [
  "canonical-livepatch",
  "thruk-agent", "nrpe", "nagios",
  "grafana",
  "prometheus-ceph-exporter",
  "prometheus-libvirt-exporter",
  "prometheus-openstack-exporter",
  "prometheus",
  "prometheus2",
  "telegraf",
  "kibana", "filebeat", "graylog", "elasticsearch",
  "etcd",
  "easyrsa",
  "mysql", "percona-cluster",
  "mongodb",
  "ntp"]

def ALL_CHARMS : List String := OPENSTACK_CHAMRS ++ LMA_CHARMS

/-- `ORDERS = {charm: i for i, charm in enumerate(OPENSTACK_CHAMRS + LMA_CHARMS)}`.
The catalogs have no duplicate names (proved below), so the dict comprehension
is the first-match association list of (charm, index). -/
def ORDERS : List (String × Nat) :=
  (List.enumFrom 0 ALL_CHARMS).map (fun p => (p.2, p.1))

/-- `ORDERS.get(charm_name, ORDER_MAX)` (source line 436). -/
def getOrder (charm : String) : Nat :=
  (alget ORDERS charm).getD ORDER_MAX

/- ------------------------------------------------------------------
get_revision_commit (source lines 179-269).
The two HTTP responses are oracle inputs: the metadata JSON is collapsed
to its `Id` field (absent key and JSON null both modelled as `none`) and
the `Meta.extra-info.vcs-revisions` list of commit fields (a missing
`commit` key modelled as the empty string, which Python treats the same
as '' in the `if not commit` test); the fallback `archive/repo-info`
plain-text document is a string.
------------------------------------------------------------------ -/

structure MetaResponse where
  Id : Option String
  vcsRevisions : List String
  deriving DecidableEq, Repr

/-- Python `s.strip()` (whitespace from both ends). -/
def strip (s : String) : String :=
  String.mk (((s.data.dropWhile Char.isWhitespace).reverse.dropWhile Char.isWhitespace).reverse)

/-- Split a character list on a separator character. -/
def splitChar (sep : Char) : List Char → List (List Char)
  | [] => [[]]
  | c :: rest =>
    match splitChar sep rest with
    | [] => if c = sep then [[], [c]] else [[c]]
    | h :: t => if c = sep then [] :: h :: t else (c :: h) :: t

/-- Python `s.rsplit('-')[-1]`: the suffix after the last hyphen
(the whole string when there is no hyphen). -/
def lastSegmentDash (s : String) : String :=
  String.mk ((s.data.reverse.takeWhile (fun c => c ≠ '-')).reverse)

/-- Key part of `line.split(':', maxsplit=1)`. -/
def lineKey (line : String) : String :=
  String.mk (line.data.takeWhile (fun c => c ≠ ':'))

/-- Value part of `line.split(':', maxsplit=1)`. -/
def lineVal (line : String) : String :=
  String.mk ((line.data.dropWhile (fun c => c ≠ ':')).drop 1)

/-- The fallback parse of the `repo-info` document (source lines 259-267):
strip the text, split into lines, and return the stripped value of the
first line whose `key: value` key is `commit-sha-1`, else the empty
string (i.e. `commit` is left unset). -/
def repoInfoCommit (text : String) : String :=
  let lines := (splitChar '\n' (strip text).data).map (fun l => strip (String.mk l))
  match lines.find? (fun line =>
      line.data.any (fun c => c = ':') && lineKey line == "commit-sha-1") with
  | some line => strip (lineVal line)
  | none => ""

/-- `get_revision_commit` (source lines 238-269) as a function of the two
remote responses.  Returns the `(rev, commit)` pair. -/
def get_revision_commit (resp : MetaResponse) (repoInfoText : String) : String × String :=
  match resp.Id with
  | none => ("", "")
  | some id0 =>
    if id0 ≠ "" ∧ id0.data.any (fun c => c = '-') then
      let rev := lastSegmentDash id0
      let commit0 :=
        match resp.vcsRevisions with
        | [] => ""
        | c :: _ => c
      (rev, if commit0 = "" then repoInfoCommit repoInfoText else commit0)
    else ("", "")

/- ------------------------------------------------------------------
update_charm_revisions (source lines 272-308).
The fetcher is split into the latest-revision result (`get_revision_commit(charm)`)
and a per-revision oracle (`get_revision_commit(charm, rev=r)`).  The walk
additionally returns, as pure instrumentation, the list of revisions it
actually passed to the fetch oracle, in order.
------------------------------------------------------------------ -/

/-- The downward walk of `update_charm_revisions` (source lines 289-307), on
the list of remaining `n_rev` values (`L-1, L-2, ..., 0`).  State:
revisions map, `changed` counter, `missing_revs` counter, fetched-revision
trace. -/
def walkRevs (fetch : String → String × String) :
    List Nat → Dict → Nat → Nat → List String → Dict × Nat × List String
  | [], revisions, changed, _missing, attempted => (revisions, changed, attempted)
  | k :: rest, revisions, changed, missing, attempted =>
    if almem revisions (toString k) then
      walkRevs fetch rest revisions changed missing attempted
    else
      let rc := fetch (toString k)
      if rc.1 ≠ "" ∧ rc.2 ≠ "" then
        walkRevs fetch rest (alset revisions rc.1 rc.2) (changed + 1) 0
          (attempted ++ [toString k])
      else
        if missing + 1 ≥ 3 then (revisions, changed, attempted ++ [toString k])
        else walkRevs fetch rest revisions changed (missing + 1) (attempted ++ [toString k])

/-- `update_charm_revisions(charm, revisions)` (source lines 272-308).
`fetchLatest` is the latest-revision fetch result, `fetch` the
specific-revision fetch oracle.  Returns the updated map, the `changed`
count and the walk's fetched-revision trace; `int(rev)` failing on the
latest revision raises `ValueError` (in Python the unguarded write of the
latest `(rev, commit)` pair has already mutated the caller's dict when
that happens). -/
def update_charm_revisions (fetchLatest : String × String)
    (fetch : String → String × String) (revisions : Dict) :
    Except PyErr (Dict × Nat × List String) :=
  let start : Dict × Nat :=
    if almem revisions fetchLatest.1 then (revisions, 0)
    else (alset revisions fetchLatest.1 fetchLatest.2, 1)
  match pyInt fetchLatest.1 with
  | none => .error .valueError
  | some n => .ok (walkRevs fetch (List.range n.toNat).reverse start.1 start.2 0 [])

/- ------------------------------------------------------------------
update_branch_revision (source lines 328-351), split into its two loops.
------------------------------------------------------------------ -/

/-- The inner loop of pass 1: fold `for rev, commit in revisions.items()`
over the accumulator `commits`, keeping for each commit the revision
whenever `int(rev) > int(commits.get(commit, 0))`. -/
def invertRevisions : Dict → Dict → Except PyErr Dict
  | [], commits => .ok commits
  | rc :: rest, commits =>
    match pyInt rc.1 with
    | none => .error .valueError
    | some cur =>
      match alget commits rc.2 with
      | none =>
        invertRevisions rest (if cur > 0 then alset commits rc.2 rc.1 else commits)
      | some r0 =>
        match pyInt r0 with
        | none => .error .valueError
        | some prev =>
          invertRevisions rest (if cur > prev then alset commits rc.2 rc.1 else commits)

/-- Pass 1 of `update_branch_revision` (source lines 330-337): build
`OPENSTACK_CHARMS_COMMIT_REVISION`, charm by charm in document order. -/
def commitRevisionPass : Doc → Except PyErr Doc
  | [] => .ok []
  | q :: rest =>
    match invertRevisions q.2 [] with
    | .error e => .error e
    | .ok commits =>
      match commitRevisionPass rest with
      | .error e => .error e
      | .ok tail => .ok ((q.1, commits) :: tail)

/-- The inner loop of pass 2 (source lines 344-348) for one charm: note the
`OPENSTACK_CHARMS_COMMIT_REVISION[charm]` indexing happens inside the
per-branch loop, so a charm with an empty branch map never raises. -/
def deriveCharmLoop (commitRevision : Doc) (charm : String) :
    Dict → Dict → Except PyErr Dict
  | [], dbr => .ok dbr
  | bc :: rest, dbr =>
    match alget commitRevision charm with
    | none => .error .keyError
    | some commits =>
      let rev := (alget commits bc.2).getD ""
      deriveCharmLoop commitRevision charm rest
        (if rev ≠ "" then alset dbr bc.1 rev else dbr)

/-- Pass 2 of `update_branch_revision` (source lines 342-349): derive the
branch → revision dict for every charm of the branch-commit document. -/
def branchRevisionPass (commitRevision : Doc) : Doc → Except PyErr Doc
  | [] => .ok []
  | p :: rest =>
    match deriveCharmLoop commitRevision p.1 p.2 [] with
    | .error e => .error e
    | .ok dbr =>
      match branchRevisionPass commitRevision rest with
      | .error e => .error e
      | .ok tail => .ok ((p.1, dbr) :: tail)

/-- `update_branch_revision` (source lines 328-351) as a function of the two
persisted documents, returning the derived branch-revision document. -/
def update_branch_revision (revisionCommit branchCommit : Doc) : Except PyErr Doc :=
  match commitRevisionPass revisionCommit with
  | .error e => .error e
  | .ok commitRevision => branchRevisionPass commitRevision branchCommit

/-- The three persisted JSON documents. -/
structure Store where
  branchCommit : Doc
  revisionCommit : Doc
  branchRevision : Doc
  deriving DecidableEq, Repr

/-- Pass C on the persisted store: read the branch-commit and
revision-commit documents, overwrite the branch-revision document. -/
def passC (s : Store) : Except PyErr Store :=
  match update_branch_revision s.revisionCommit s.branchCommit with
  | .error e => .error e
  | .ok d => .ok ⟨s.branchCommit, s.revisionCommit, d⟩

/- ------------------------------------------------------------------
Report helpers (source lines 354-364) and the report sort (line 444).
------------------------------------------------------------------ -/

/-- `yesno(boolean, yes, no) = (no, yes)[boolean]`. -/
def yesno (b : Bool) (yes no : String) : String :=
  if b then yes else no

/-- `mark_revs(revs, current_rev)` (source lines 359-364): with a truthy
current revision, prefix `*` to every cell equal to it. -/
def mark_revs (revs : List String) (current_rev : String) : List String :=
  if current_rev ≠ "" then
    revs.map (fun rev => yesno (current_rev == rev) "*" "" ++ rev)
  else revs

/-- The key relation of `sorted(apps, key=lambda app: app['order'])`:
compare applications (name, order) by order. -/
def byOrder (a b : String × Nat) : Prop := a.2 ≤ b.2

instance : DecidableRel byOrder := fun a b => Nat.decLe a.2 b.2

instance : IsTotal (String × Nat) byOrder := ⟨fun a b => Nat.le_total a.2 b.2⟩

instance : IsTrans (String × Nat) byOrder := ⟨fun _ _ _ hab hbc => Nat.le_trans hab hbc⟩

/-- The report sort (source line 444): Python `sorted` is a stable sort by
the order key, embedded as insertion sort with a non-strict comparison
(which is stable: an element is inserted before the first strictly
greater element, i.e. after all earlier elements of equal order). -/
def sortApps (apps : List (String × Nat)) : List (String × Nat) :=
  List.insertionSort byOrder apps

/- ------------------------------------------------------------------
The derivation as claim C1 words it (for comparison with the code):
for every commit take the numerically largest revision that produced it;
a branch whose commit has no producing revision at all is omitted.
------------------------------------------------------------------ -/

/-- Modelled from claim C1's words: the numerically largest revision of
`revisions` that maps to commit `c`, if any revision at all does. -/
def claimedCommitRevision (revisions : Dict) (c : String) : Option String :=
  revisions.foldl (fun best p =>
    if p.2 == c then
      match best with
      | none => some p.1
      | some r =>
        match pyInt p.1, pyInt r with
        | some n, some m => if m < n then some p.1 else best
        | _, _ => best
    else best) none

/-- Modelled from claim C1's words: map every branch through its commit to
the largest producing revision, omitting branches whose commit resolves
to no revision. -/
def claimedUpdateBranchRevision (revisionCommit branchCommit : Doc) : Doc :=
  branchCommit.map (fun p =>
    (p.1,
      match alget revisionCommit p.1 with
      | none => []
      | some revisions =>
        p.2.filterMap (fun bc =>
          (claimedCommitRevision revisions bc.2).map (fun r => (bc.1, r)))))

/- ------------------------------------------------------------------
Association-list lemmas.
------------------------------------------------------------------ -/

theorem alget_alset_self {α : Type} (d : List (String × α)) (k : String) (v : α) :
    alget (alset d k v) k = some v := by
  induction d with
  | nil => simp [alget, alset]
  | cons p rest ih =>
    by_cases h : p.1 == k
    · simp [alset, h, alget]
    · simp [alset, h, alget, ih]

theorem alget_alset_ne {α : Type} (d : List (String × α)) (k k2 : String) (v : α)
    (h : k2 ≠ k) : alget (alset d k v) k2 = alget d k2 := by
  induction d with
  | nil => simp [alget, alset, Ne.symm h]
  | cons p rest ih =>
    by_cases hp : p.1 == k
    · have hpk : p.1 = k := by simpa using hp
      simp [alset, hp, alget, hpk, h, Ne.symm h]
    · simp [alset, hp, alget, ih]

theorem almem_alset_of_almem {α : Type} (d : List (String × α)) (k k2 : String) (v : α)
    (h : almem d k2 = true) : almem (alset d k v) k2 = true := by
  by_cases hk : k2 = k
  · subst hk; simp [almem, alget_alset_self]
  · simpa [almem, alget_alset_ne d k k2 v hk] using h

theorem almem_of_almem_alset {α : Type} (d : List (String × α)) (k k2 : String) (v : α)
    (h : almem (alset d k v) k2 = false) : almem d k2 = false := by
  by_cases h2 : almem d k2 = true
  · rw [almem_alset_of_almem d k k2 v h2] at h
    exact absurd h (by simp)
  · simp only [Bool.not_eq_true] at h2
    exact h2

theorem alget_eq_some_iff_mem {α : Type} (d : List (String × α))
    (hnd : (d.map Prod.fst).Nodup) (k : String) (v : α) :
    alget d k = some v ↔ (k, v) ∈ d := by
  induction d with
  | nil => simp [alget]
  | cons p rest ih =>
    rw [List.map_cons, List.nodup_cons] at hnd
    by_cases hp : p.1 == k
    · have hpk : p.1 = k := by simpa using hp
      simp only [alget, hp, if_pos rfl, List.mem_cons]
      constructor
      · intro hv
        left
        cases p
        simp_all
      · intro hv
        rcases hv with hv | hv
        · cases p; simp_all
        · exact absurd (hpk ▸ List.mem_map_of_mem Prod.fst hv) hnd.1
    · have hpk : p.1 ≠ k := by simpa using hp
      simp only [alget, hp, List.mem_cons]
      rw [if_neg (by simp [hp]), ih hnd.2]
      constructor
      · exact Or.inr
      · intro hv
        rcases hv with hv | hv
        · cases p
          simp only [Prod.mk.injEq] at hv
          exact absurd hv.1.symm hpk
        · exact hv

/- ------------------------------------------------------------------
Step lemmas for the reconciler walk.
------------------------------------------------------------------ -/

theorem walkRevs_cons (fetch : String → String × String) (k : Nat) (ks : List Nat)
    (revs : Dict) (c m : Nat) (a : List String) :
    walkRevs fetch (k :: ks) revs c m a =
      if almem revs (toString k) then walkRevs fetch ks revs c m a
      else
        if (fetch (toString k)).1 ≠ "" ∧ (fetch (toString k)).2 ≠ "" then
          walkRevs fetch ks (alset revs (fetch (toString k)).1 (fetch (toString k)).2)
            (c + 1) 0 (a ++ [toString k])
        else
          if m + 1 ≥ 3 then (revs, c, a ++ [toString k])
          else walkRevs fetch ks revs c (m + 1) (a ++ [toString k]) := rfl

theorem walkRevs_skip (fetch : String → String × String) (k : Nat) (ks : List Nat)
    (revs : Dict) (c m : Nat) (a : List String)
    (hk : almem revs (toString k) = true) :
    walkRevs fetch (k :: ks) revs c m a = walkRevs fetch ks revs c m a := by
  rw [walkRevs_cons, if_pos hk]

theorem walkRevs_hit (fetch : String → String × String) (k : Nat) (ks : List Nat)
    (revs : Dict) (c m : Nat) (a : List String)
    (hk : almem revs (toString k) = false)
    (h1 : (fetch (toString k)).1 ≠ "") (h2 : (fetch (toString k)).2 ≠ "") :
    walkRevs fetch (k :: ks) revs c m a =
      walkRevs fetch ks (alset revs (fetch (toString k)).1 (fetch (toString k)).2)
        (c + 1) 0 (a ++ [toString k]) := by
  rw [walkRevs_cons, if_neg (by simp [hk]), if_pos ⟨h1, h2⟩]

theorem walkRevs_miss (fetch : String → String × String) (k : Nat) (ks : List Nat)
    (revs : Dict) (c m : Nat) (a : List String)
    (hk : almem revs (toString k) = false)
    (hf : ¬((fetch (toString k)).1 ≠ "" ∧ (fetch (toString k)).2 ≠ ""))
    (hm : m + 1 < 3) :
    walkRevs fetch (k :: ks) revs c m a =
      walkRevs fetch ks revs c (m + 1) (a ++ [toString k]) := by
  rw [walkRevs_cons, if_neg (by simp [hk]), if_neg hf, if_neg (by omega)]

theorem walkRevs_stop (fetch : String → String × String) (k : Nat) (ks : List Nat)
    (revs : Dict) (c m : Nat) (a : List String)
    (hk : almem revs (toString k) = false)
    (hf : ¬((fetch (toString k)).1 ≠ "" ∧ (fetch (toString k)).2 ≠ ""))
    (hm : m + 1 ≥ 3) :
    walkRevs fetch (k :: ks) revs c m a = (revs, c, a ++ [toString k]) := by
  rw [walkRevs_cons, if_neg (by simp [hk]), if_neg hf, if_pos hm]

/-- Core invariant of the downward walk: keys already present in the map are
never fetched and never overwritten, and every fetched revision was absent
from the walk's input map, provided the fetch oracle echoes the requested
revision (or returns the empty unresolved revision), as the charm-store
lookup for `charm-rev` does. -/
theorem walkRevs_preserves (fetch : String → String × String)
    (hecho : ∀ r, (fetch r).1 = r ∨ (fetch r).1 = "") :
    ∀ (ks : List Nat) (revs : Dict) (c m : Nat) (a : List String),
      (∀ k2, almem revs k2 = true →
        alget (walkRevs fetch ks revs c m a).1 k2 = alget revs k2)
      ∧ (∀ r, r ∈ (walkRevs fetch ks revs c m a).2.2 → r ∈ a ∨ almem revs r = false) := by
  intro ks
  induction ks with
  | nil =>
    intro revs c m a
    exact ⟨fun k2 _ => rfl, fun r hr => Or.inl hr⟩
  | cons k rest ih =>
    intro revs c m a
    by_cases hk : almem revs (toString k) = true
    · rw [walkRevs_skip fetch k rest revs c m a hk]
      exact ih revs c m a
    · have hk2 : almem revs (toString k) = false := by
        simp only [Bool.not_eq_true] at hk
        exact hk
      by_cases hs : (fetch (toString k)).1 ≠ "" ∧ (fetch (toString k)).2 ≠ ""
      · rw [walkRevs_hit fetch k rest revs c m a hk2 hs.1 hs.2]
        have hf1 : (fetch (toString k)).1 = toString k := by
          rcases hecho (toString k) with h | h
          · exact h
          · exact absurd h hs.1
        constructor
        · intro k2 hmem
          have hne : k2 ≠ (fetch (toString k)).1 := by
            rw [hf1]
            intro e
            rw [e] at hmem
            simp [hmem] at hk2
          rw [(ih _ (c + 1) 0 (a ++ [toString k])).1 k2
              (almem_alset_of_almem revs (fetch (toString k)).1 k2 (fetch (toString k)).2 hmem)]
          exact alget_alset_ne revs (fetch (toString k)).1 k2 (fetch (toString k)).2 hne
        · intro r hr
          rcases (ih _ (c + 1) 0 (a ++ [toString k])).2 r hr with h | h
          · rcases List.mem_append.mp h with h | h
            · exact Or.inl h
            · right
              have hrk : r = toString k := by simpa using h
              rw [hrk]
              exact hk2
          · exact Or.inr
              (almem_of_almem_alset revs (fetch (toString k)).1 r (fetch (toString k)).2 h)
      · by_cases hm : m + 1 ≥ 3
        · rw [walkRevs_stop fetch k rest revs c m a hk2 hs hm]
          constructor
          · intro k2 _
            rfl
          · intro r hr
            rcases List.mem_append.mp hr with h | h
            · exact Or.inl h
            · right
              have hrk : r = toString k := by simpa using h
              rw [hrk]
              exact hk2
        · rw [walkRevs_miss fetch k rest revs c m a hk2 hs (by omega)]
          constructor
          · exact (ih revs c (m + 1) (a ++ [toString k])).1
          · intro r hr
            rcases (ih revs c (m + 1) (a ++ [toString k])).2 r hr with h | h
            · rcases List.mem_append.mp h with h | h
              · exact Or.inl h
              · right
                have hrk : r = toString k := by simpa using h
                rw [hrk]
                exact hk2
            · exact Or.inr h

/-- C2: with a latest fetch of revision 6 and empty fetch results for
revisions 5, 4 and 3, the reconciler fetches exactly revisions 5, 4, 3
(never 2 or below) and stops; and in general the walk's consecutive-miss
counter is incremented by every empty fetch result, reset to 0 by every
successful fetch, and the walk aborts exactly when it reaches 3. -/
theorem update_charm_revisions_early_stop (fetch : String → String × String) (c : String)
    (h5 : fetch "5" = ("", "")) (h4 : fetch "4" = ("", "")) (h3 : fetch "3" = ("", "")) :
    update_charm_revisions ("6", c) fetch [] = .ok ([("6", c)], 1, ["5", "4", "3"])
    ∧ (∀ ks revs ch m a k, almem revs (toString k) = false →
        ¬((fetch (toString k)).1 ≠ "" ∧ (fetch (toString k)).2 ≠ "") → m + 1 < 3 →
        walkRevs fetch (k :: ks) revs ch m a =
          walkRevs fetch ks revs ch (m + 1) (a ++ [toString k]))
    ∧ (∀ ks revs ch m a k, almem revs (toString k) = false →
        (fetch (toString k)).1 ≠ "" → (fetch (toString k)).2 ≠ "" →
        walkRevs fetch (k :: ks) revs ch m a =
          walkRevs fetch ks (alset revs (fetch (toString k)).1 (fetch (toString k)).2)
            (ch + 1) 0 (a ++ [toString k]))
    ∧ (∀ ks revs ch m a k, almem revs (toString k) = false →
        ¬((fetch (toString k)).1 ≠ "" ∧ (fetch (toString k)).2 ≠ "") → m + 1 ≥ 3 →
        walkRevs fetch (k :: ks) revs ch m a = (revs, ch, a ++ [toString k])) := by
  have e5 : fetch (toString (5 : Nat)) = ("", "") := h5
  have e4 : fetch (toString (4 : Nat)) = ("", "") := h4
  have e3 : fetch (toString (3 : Nat)) = ("", "") := h3
  have hf5 : ¬((fetch (toString (5 : Nat))).1 ≠ "" ∧ (fetch (toString (5 : Nat))).2 ≠ "") := by
    rw [e5]
    simp
  have hf4 : ¬((fetch (toString (4 : Nat))).1 ≠ "" ∧ (fetch (toString (4 : Nat))).2 ≠ "") := by
    rw [e4]
    simp
  have hf3 : ¬((fetch (toString (3 : Nat))).1 ≠ "" ∧ (fetch (toString (3 : Nat))).2 ≠ "") := by
    rw [e3]
    simp
  refine ⟨?_, ?_, ?_, ?_⟩
  · have h0 : update_charm_revisions ("6", c) fetch [] =
        .ok (walkRevs fetch [5, 4, 3, 2, 1, 0] [("6", c)] 1 0 []) := rfl
    rw [h0,
      walkRevs_miss fetch 5 [4, 3, 2, 1, 0] [("6", c)] 1 0 [] rfl hf5 (by omega),
      walkRevs_miss fetch 4 [3, 2, 1, 0] [("6", c)] 1 1 ([] ++ [toString (5 : Nat)]) rfl hf4
        (by omega),
      walkRevs_stop fetch 3 [2, 1, 0] [("6", c)] 1 2
        (([] ++ [toString (5 : Nat)]) ++ [toString (4 : Nat)]) rfl hf3 (by omega)]
    rfl
  · intro ks revs ch m a k hk hf hm
    exact walkRevs_miss fetch k ks revs ch m a hk hf hm
  · intro ks revs ch m a k hk h1 h2
    exact walkRevs_hit fetch k ks revs ch m a hk h1 h2
  · intro ks revs ch m a k hk hf hm
    exact walkRevs_stop fetch k ks revs ch m a hk hf hm

/-- C2 (witness): the early-stop scenario at a concrete fetch stub. -/
theorem update_charm_revisions_early_stop_witness :
    update_charm_revisions ("6", "HEAD") (fun _ => ("", "")) [] =
      .ok ([("6", "HEAD")], 1, ["5", "4", "3"]) :=
  (update_charm_revisions_early_stop (fun _ => ("", "")) "HEAD" rfl rfl rfl).1

/-- C3: evaluating `update_charm_revisions` when the latest-revision fetch
is unresolvable, i.e. returns `("", "")`: `int('')` raises `ValueError`,
so the empty result is not tolerated on this path (it is on the
downward-walk path), contradicting the claim. -/
theorem update_charm_revisions_empty_latest_raises :
    update_charm_revisions ("", "") (fun _ => ("", "")) [] = .error .valueError := rfl

/-- C4: the reconciler never deletes or overwrites an existing revision key,
and every revision it fetches during the walk was absent from the
pre-existing map; stated under the faithful assumption that the
specific-revision fetch echoes the requested revision or is unresolved. -/
theorem update_charm_revisions_preserves_existing
    (fetchLatest : String × String) (fetch : String → String × String) (revisions : Dict)
    (hecho : ∀ r, (fetch r).1 = r ∨ (fetch r).1 = "")
    (out : Dict × Nat × List String)
    (h : update_charm_revisions fetchLatest fetch revisions = .ok out) :
    (∀ k, almem revisions k = true → alget out.1 k = alget revisions k)
    ∧ (∀ r, r ∈ out.2.2 → almem revisions r = false) := by
  cases hp : pyInt fetchLatest.1 with
  | none =>
    simp only [update_charm_revisions, hp] at h
    exact Except.noConfusion h
  | some n =>
    by_cases hm : almem revisions fetchLatest.1 = true
    · simp only [update_charm_revisions, hp, hm, if_true, Except.ok.injEq] at h
      subst h
      constructor
      · exact (walkRevs_preserves fetch hecho _ revisions 0 0 []).1
      · intro r hr
        rcases (walkRevs_preserves fetch hecho _ revisions 0 0 []).2 r hr with h | h
        · exact absurd h (List.not_mem_nil r)
        · exact h
    · have hm2 : almem revisions fetchLatest.1 = false := by
        simp only [Bool.not_eq_true] at hm
        exact hm
      simp only [update_charm_revisions, hp, hm2, Bool.false_eq_true, if_false,
        Except.ok.injEq] at h
      subst h
      constructor
      · intro k2 hk2
        have hne : k2 ≠ fetchLatest.1 := by
          intro e
          rw [e] at hk2
          simp [hk2] at hm2
        rw [(walkRevs_preserves fetch hecho _ _ 1 0 []).1 k2
            (almem_alset_of_almem revisions fetchLatest.1 k2 fetchLatest.2 hk2)]
        exact alget_alset_ne revisions fetchLatest.1 k2 fetchLatest.2 hne
      · intro r hr
        rcases (walkRevs_preserves fetch hecho _ _ 1 0 []).2 r hr with h | h
        · exact absurd h (List.not_mem_nil r)
        · exact almem_of_almem_alset revisions fetchLatest.1 r fetchLatest.2 h

/-- C4 (witness): an existing entry `"0" → "Z"` is untouched by a run that
adds latest revision 1 and then skips revision 0. -/
theorem update_charm_revisions_preserves_existing_witness :
    alget ([("0", "Z"), ("1", "C")] : Dict) "0" = alget ([("0", "Z")] : Dict) "0" :=
  (update_charm_revisions_preserves_existing ("1", "C") (fun _ => ("", "")) [("0", "Z")]
    (fun _ => Or.inr rfl) ([("0", "Z"), ("1", "C")], 1, []) rfl).1 "0" rfl

/-- C5: evaluating `update_charm_revisions` when the latest-revision fetch
resolves the revision but not the commit: the unguarded initial write
(source line 285) stores revision "5" with an empty commit, violating
the non-empty-commit invariant the claim states (the downward-walk
writes are guarded, source line 296). -/
theorem update_charm_revisions_unguarded_latest_write :
    update_charm_revisions ("5", "") (fun _ => ("", "")) [] =
      .ok ([("5", "")], 1, ["4", "3", "2"])
    ∧ alget ([("5", "")] : Dict) "5" = some "" :=
  ⟨rfl, rfl⟩

/-- C7 (counterexample): when the metadata `Id` parses but neither the
`vcs-revisions` field nor the fallback document yields a commit,
`get_revision_commit` returns a non-empty revision paired with an empty
commit, contradicting the claim that this never happens. -/
theorem get_revision_commit_empty_commit_cex :
    (get_revision_commit ⟨some "cs:barbican-vault-15", []⟩ "").1 = "15"
    ∧ (get_revision_commit ⟨some "cs:barbican-vault-15", []⟩ "").2 = "" :=
  ⟨rfl, rfl⟩

/-- C7 (amended): `get_revision_commit` returns `("", "")` without raising
whenever the response has no `Id`, an empty `Id`, or an `Id` without a
hyphen; when the `Id` resolves but no commit is found it instead returns
the parsed revision paired with an empty commit. -/
theorem get_revision_commit_unresolved (vcs : List String) (text : String) :
    get_revision_commit ⟨none, vcs⟩ text = ("", "")
    ∧ (∀ id0 : String, (id0 = "" ∨ id0.data.any (fun ch => ch = '-') = false) →
        get_revision_commit ⟨some id0, vcs⟩ text = ("", ""))
    ∧ get_revision_commit ⟨some "cs:barbican-vault-15", []⟩ "" = ("15", "") := by
  refine ⟨rfl, ?_, rfl⟩
  intro id0 h
  rcases h with h | h
  · subst h
    simp [get_revision_commit]
  · simp [get_revision_commit, h]

/-- C7 (witness): a hyphen-free `Id` yields the empty pair. -/
theorem get_revision_commit_unresolved_witness :
    get_revision_commit ⟨some "nodash", ["c"]⟩ "txt" = ("", "") :=
  (get_revision_commit_unresolved ["c"] "txt").2.1 "nodash" (Or.inr rfl)

/-- C9: `mark_revs` prefixes `*` exactly to the cells equal to a truthy
deployed revision and leaves everything else unchanged; with a falsy
deployed revision no cell is marked.  Includes the spec's example. -/
theorem mark_revs_marks_matching (current_rev : String) (revs : List String) :
    mark_revs revs current_rev =
      revs.map (fun rev => if current_rev ≠ "" ∧ rev = current_rev then "*" ++ rev else rev)
    ∧ mark_revs ["10", "9"] "10" = ["*10", "9"] := by
  constructor
  · by_cases hc : current_rev = ""
    · subst hc
      simp [mark_revs]
    · rw [mark_revs, if_pos hc]
      apply List.map_congr_left
      intro rev _
      by_cases h : rev = current_rev
      · subst h
        simp [yesno, hc]
      · have hb : (current_rev == rev) = false := by
          simp [Ne.symm h]
        simp only [yesno, hb, Bool.false_eq_true, if_false, h, and_false, if_false]
        rfl
  · rfl

/-- The two catalogs concatenated contain no duplicate charm name, so the
`ORDERS` dict comprehension never overwrites an entry. -/
theorem ALL_CHARMS_nodup : ALL_CHARMS.Nodup := by decide

theorem alget_enumFrom (c : String) :
    ∀ (l : List String) (n : Nat),
      alget ((List.enumFrom n l).map (fun p => (p.2, p.1))) c =
        if c ∈ l then some (n + List.indexOf c l) else none := by
  intro l
  induction l with
  | nil =>
    intro n
    simp [alget]
  | cons x xs ih =>
    intro n
    by_cases hx : x = c
    · subst hx
      simp [List.enumFrom, alget, List.indexOf_cons_self]
    · have hbx : (x == c) = false := by simp [hx]
      simp only [List.enumFrom, List.map_cons, alget, hbx, Bool.false_eq_true, if_false]
      rw [ih (n + 1)]
      by_cases hc : c ∈ xs
      · rw [if_pos hc, if_pos (List.mem_cons_of_mem x hc), List.indexOf_cons_ne xs hx]
        congr 1
        omega
      · rw [if_neg hc, if_neg (by simp [Ne.symm hx, hc])]

theorem filter_orderedInsert_key (k : Nat) (a : String × Nat) :
    ∀ l : List (String × Nat),
      (List.orderedInsert byOrder a l).filter (fun x => x.2 == k) =
        if a.2 = k then a :: l.filter (fun x => x.2 == k)
        else l.filter (fun x => x.2 == k) := by
  intro l
  induction l with
  | nil =>
    by_cases h : a.2 = k <;> simp [List.orderedInsert, List.filter_cons, h]
  | cons b l2 ih =>
    by_cases hab : byOrder a b
    · rw [List.orderedInsert_of_le byOrder l2 hab]
      by_cases h : a.2 = k <;> simp [List.filter_cons, h]
    · simp only [List.orderedInsert, if_neg hab]
      by_cases hb : b.2 = k
      · have hak : a.2 ≠ k := by
          have hlt : b.2 < a.2 := Nat.lt_of_not_le (by simpa [byOrder] using hab)
          omega
        simp [List.filter_cons, hb, ih, hak]
      · by_cases h : a.2 = k <;> simp [List.filter_cons, ih, h, hb]

theorem sortApps_filter_key (k : Nat) :
    ∀ apps : List (String × Nat),
      (sortApps apps).filter (fun x => x.2 == k) = apps.filter (fun x => x.2 == k) := by
  intro apps
  simp only [sortApps]
  induction apps with
  | nil => rfl
  | cons a l ih =>
    simp only [List.insertionSort]
    rw [filter_orderedInsert_key k a (List.insertionSort byOrder l), ih]
    by_cases h : a.2 = k
    · simp [List.filter_cons, h]
    · simp [List.filter_cons, h]

/-- C8: a component's upgrade order is its 0-based position in the
concatenated catalogs, `ORDER_MAX` if absent; every catalog member is
ranked strictly below `ORDER_MAX`; and the report sort is a permutation,
sorted by order (so every unranked application comes after every ranked
one regardless of name), and stable (it preserves the input order of the
applications of any fixed order value). -/
theorem charm_order_and_sort :
    (∀ c, getOrder c = if c ∈ ALL_CHARMS then List.indexOf c ALL_CHARMS else ORDER_MAX)
    ∧ (∀ c, c ∈ ALL_CHARMS → getOrder c < ORDER_MAX)
    ∧ (∀ apps : List (String × Nat),
        List.Perm (sortApps apps) apps
        ∧ List.Pairwise (fun a b => a.2 ≤ b.2) (sortApps apps)
        ∧ List.Pairwise (fun a b => a.2 = ORDER_MAX → ¬ b.2 < ORDER_MAX) (sortApps apps)
        ∧ ∀ k, (sortApps apps).filter (fun x => x.2 == k) =
            apps.filter (fun x => x.2 == k)) := by
  have hchar : ∀ c, getOrder c =
      if c ∈ ALL_CHARMS then List.indexOf c ALL_CHARMS else ORDER_MAX := by
    intro c
    unfold getOrder ORDERS
    rw [alget_enumFrom c ALL_CHARMS 0]
    by_cases hc : c ∈ ALL_CHARMS
    · simp [hc]
    · simp [hc]
  refine ⟨hchar, ?_, ?_⟩
  · intro c hc
    rw [hchar c, if_pos hc]
    have h1 : List.indexOf c ALL_CHARMS < ALL_CHARMS.length := List.indexOf_lt_length.mpr hc
    have h2 : ALL_CHARMS.length = 52 := rfl
    have h3 : ORDER_MAX = 999 := rfl
    omega
  · intro apps
    refine ⟨List.perm_insertionSort byOrder apps, ?_, ?_, fun k => sortApps_filter_key k apps⟩
    · exact List.sorted_insertionSort byOrder apps
    · have hs2 : List.Pairwise (fun a b : String × Nat => a.2 ≤ b.2) (sortApps apps) :=
        List.sorted_insertionSort byOrder apps
      exact hs2.imp (fun hab hmax hlt =>
        absurd (Nat.lt_of_lt_of_le hlt (hmax ▸ hab)) (Nat.lt_irrefl _))

/-- C8 (witness): "keystone" is in the primary catalog, hence ranked below
the unranked sentinel. -/
theorem charm_order_and_sort_witness : getOrder "keystone" < ORDER_MAX :=
  charm_order_and_sort.2.1 "keystone" (by decide)

/- ------------------------------------------------------------------
C6: the end-to-end Pass C example and idempotence.
------------------------------------------------------------------ -/

def exampleStore : Store :=
  ⟨[("cinder", [("20.05", "C1")])], [("cinder", [("10", "C1"), ("9", "C0")])], []⟩

theorem passC_mk (b r x : Doc) :
    passC ⟨b, r, x⟩ =
      match update_branch_revision r b with
      | .error e => .error e
      | .ok d => .ok ⟨b, r, d⟩ := rfl

/-- C6: on the spec's end-to-end example the derived document maps branch
"20.05" of "cinder" to revision "10"; and Pass C is idempotent: its
output store is a fixed point, because the derivation reads only the
branch-commit and revision-commit documents, which it leaves unchanged. -/
theorem passC_example_and_idempotent :
    passC exampleStore =
      .ok ⟨[("cinder", [("20.05", "C1")])], [("cinder", [("10", "C1"), ("9", "C0")])],
        [("cinder", [("20.05", "10")])]⟩
    ∧ (∀ s s2 : Store, passC s = .ok s2 → passC s2 = .ok s2) := by
  constructor
  · rfl
  · intro s s2 h
    simp only [passC] at h
    cases hu : update_branch_revision s.revisionCommit s.branchCommit with
    | error e =>
      rw [hu] at h
      exact Except.noConfusion h
    | ok d =>
      rw [hu] at h
      have h3 : (Except.ok (⟨s.branchCommit, s.revisionCommit, d⟩ : Store)) = .ok s2 := h
      injection h3 with h2
      subst h2
      rw [passC_mk, hu]

/-- C6 (witness): the example output store is a fixed point of Pass C. -/
theorem passC_example_and_idempotent_witness :
    passC ⟨[("cinder", [("20.05", "C1")])], [("cinder", [("10", "C1"), ("9", "C0")])],
        [("cinder", [("20.05", "10")])]⟩ =
      .ok ⟨[("cinder", [("20.05", "C1")])], [("cinder", [("10", "C1"), ("9", "C0")])],
        [("cinder", [("20.05", "10")])]⟩ :=
  passC_example_and_idempotent.2 exampleStore _ passC_example_and_idempotent.1

/- ------------------------------------------------------------------
Characterization of the pass-1 inversion fold of update_branch_revision.
------------------------------------------------------------------ -/

theorem mem_snoc {α : Type} {x y : α} {P : List α} (h : x ∈ P ++ [y]) : x ∈ P ∨ x = y := by
  rcases List.mem_append.mp h with h | h
  · exact Or.inl h
  · exact Or.inr (List.mem_singleton.mp h)

/-- Invariant A of the pass-1 fold: every stored commit → revision entry is
a positive-valued producer from the processed prefix, maximal among the
prefix's producers of that commit. -/
def InvA (P commits : Dict) : Prop :=
  ∀ c r, alget commits c = some r →
    (r, c) ∈ P ∧ ∃ n, pyInt r = some n ∧ 0 < n ∧
      ∀ r2 n2, (r2, c) ∈ P → pyInt r2 = some n2 → n2 ≤ n

/-- Invariant B of the pass-1 fold: a commit with no stored entry has no
processed producer with a positive revision value (the `0` default of
`commits.get(commit, 0)` conflates revision 0 with absence). -/
def InvB (P commits : Dict) : Prop :=
  ∀ c, alget commits c = none →
    ∀ r2 n2, (r2, c) ∈ P → pyInt r2 = some n2 → n2 ≤ 0

theorem InvA_nil : InvA [] [] := by
  intro c r h
  exact Option.noConfusion h

theorem InvB_nil : InvB [] [] := by
  intro c _ r2 n2 hm _
  exact absurd hm (List.not_mem_nil _)

theorem InvA_set (P commits : Dict) (rev commit : String) (cur : Int)
    (hcur : pyInt rev = some cur) (hpos : 0 < cur)
    (hmax : ∀ r2 n2, (r2, commit) ∈ P → pyInt r2 = some n2 → n2 < cur)
    (hA : InvA P commits) :
    InvA (P ++ [(rev, commit)]) (alset commits commit rev) := by
  intro c r h
  by_cases hc : c = commit
  · subst hc
    rw [alget_alset_self] at h
    injection h with h
    subst h
    refine ⟨List.mem_append_right P (List.mem_singleton_self _), cur, hcur, hpos, ?_⟩
    intro r2 n2 hm hp
    rcases mem_snoc hm with hm | hm
    · exact le_of_lt (hmax r2 n2 hm hp)
    · have h1 : r2 = rev := congrArg Prod.fst hm
      subst h1
      rw [hcur] at hp
      injection hp with hp
      omega
  · rw [alget_alset_ne commits commit c rev hc] at h
    obtain ⟨hmem, n, hn, hpos2, hmax2⟩ := hA c r h
    refine ⟨List.mem_append_left _ hmem, n, hn, hpos2, ?_⟩
    intro r2 n2 hm hp
    rcases mem_snoc hm with hm | hm
    · exact hmax2 r2 n2 hm hp
    · exact absurd (congrArg Prod.snd hm) hc

theorem InvB_set (P commits : Dict) (rev commit : String)
    (hB : InvB P commits) :
    InvB (P ++ [(rev, commit)]) (alset commits commit rev) := by
  intro c hc r2 n2 hm hp
  by_cases hcc : c = commit
  · subst hcc
    rw [alget_alset_self] at hc
    exact Option.noConfusion hc
  · rw [alget_alset_ne commits commit c rev hcc] at hc
    rcases mem_snoc hm with hm | hm
    · exact hB c hc r2 n2 hm hp
    · exact absurd (congrArg Prod.snd hm) hcc

theorem InvA_keep (P commits : Dict) (rev commit : String) (cur : Int)
    (hcur : pyInt rev = some cur)
    (hbound : ∀ r0 n0, alget commits commit = some r0 → pyInt r0 = some n0 → cur ≤ n0)
    (hA : InvA P commits) :
    InvA (P ++ [(rev, commit)]) commits := by
  intro c r h
  obtain ⟨hmem, n, hn, hpos, hmax⟩ := hA c r h
  refine ⟨List.mem_append_left _ hmem, n, hn, hpos, ?_⟩
  intro r2 n2 hm hp
  rcases mem_snoc hm with hm | hm
  · exact hmax r2 n2 hm hp
  · have h1 : r2 = rev := congrArg Prod.fst hm
    have h2 : c = commit := congrArg Prod.snd hm
    subst h1
    subst h2
    rw [hcur] at hp
    injection hp with hp
    have hb := hbound r n h hn
    omega

theorem InvB_keep (P commits : Dict) (rev commit : String) (cur : Int)
    (hcur : pyInt rev = some cur)
    (hc : cur ≤ 0 ∨ alget commits commit ≠ none)
    (hB : InvB P commits) :
    InvB (P ++ [(rev, commit)]) commits := by
  intro c hcn r2 n2 hm hp
  rcases mem_snoc hm with hm | hm
  · exact hB c hcn r2 n2 hm hp
  · have h1 : r2 = rev := congrArg Prod.fst hm
    have h2 : c = commit := congrArg Prod.snd hm
    subst h1
    subst h2
    rw [hcur] at hp
    injection hp with hp
    rcases hc with hc | hc
    · omega
    · exact absurd hcn hc

theorem invert_go :
    ∀ (rest P commits : Dict),
      (∀ p ∈ rest, (pyInt p.1).isSome = true) →
      InvA P commits → InvB P commits →
      ∃ commits2, invertRevisions rest commits = .ok commits2
        ∧ InvA (P ++ rest) commits2 ∧ InvB (P ++ rest) commits2 := by
  intro rest
  induction rest with
  | nil =>
    intro P commits _ hA hB
    exact ⟨commits, rfl, by simpa using hA, by simpa using hB⟩
  | cons rc rest2 ih =>
    intro P commits hparse hA hB
    obtain ⟨cur, hcur⟩ := Option.isSome_iff_exists.mp (hparse rc (List.mem_cons_self rc rest2))
    have happ : (P ++ [rc]) ++ rest2 = P ++ rc :: rest2 := by simp
    have hparse2 : ∀ p ∈ rest2, (pyInt p.1).isSome = true :=
      fun p hp => hparse p (List.mem_cons_of_mem rc hp)
    simp only [invertRevisions, hcur]
    cases hget : alget commits rc.2 with
    | none =>
      by_cases hpos : cur > 0
      · rw [if_pos hpos]
        have hA2 : InvA (P ++ [rc]) (alset commits rc.2 rc.1) :=
          InvA_set P commits rc.1 rc.2 cur hcur hpos
            (fun r2 n2 hm hp => lt_of_le_of_lt (hB rc.2 hget r2 n2 hm hp) hpos) hA
        have hB2 : InvB (P ++ [rc]) (alset commits rc.2 rc.1) :=
          InvB_set P commits rc.1 rc.2 hB
        obtain ⟨c2, he, hA3, hB3⟩ := ih (P ++ [rc]) _ hparse2 hA2 hB2
        exact ⟨c2, he, happ ▸ hA3, happ ▸ hB3⟩
      · rw [if_neg hpos]
        have hA2 : InvA (P ++ [rc]) commits :=
          InvA_keep P commits rc.1 rc.2 cur hcur
            (fun r0 n0 h0 _ => absurd (hget ▸ h0) (by simp)) hA
        have hB2 : InvB (P ++ [rc]) commits :=
          InvB_keep P commits rc.1 rc.2 cur hcur (Or.inl (by omega)) hB
        obtain ⟨c2, he, hA3, hB3⟩ := ih (P ++ [rc]) _ hparse2 hA2 hB2
        exact ⟨c2, he, happ ▸ hA3, happ ▸ hB3⟩
    | some r0 =>
      obtain ⟨hmem0, m, hm0, hmpos, hmax0⟩ := hA rc.2 r0 hget
      simp only [hm0]
      by_cases hgt : cur > m
      · rw [if_pos hgt]
        have hA2 : InvA (P ++ [rc]) (alset commits rc.2 rc.1) :=
          InvA_set P commits rc.1 rc.2 cur hcur (lt_trans hmpos hgt)
            (fun r2 n2 hm hp => lt_of_le_of_lt (hmax0 r2 n2 hm hp) hgt) hA
        have hB2 : InvB (P ++ [rc]) (alset commits rc.2 rc.1) :=
          InvB_set P commits rc.1 rc.2 hB
        obtain ⟨c2, he, hA3, hB3⟩ := ih (P ++ [rc]) _ hparse2 hA2 hB2
        exact ⟨c2, he, happ ▸ hA3, happ ▸ hB3⟩
      · rw [if_neg hgt]
        have hA2 : InvA (P ++ [rc]) commits :=
          InvA_keep P commits rc.1 rc.2 cur hcur
            (fun r0b n0 h0 hp0 => by
              rw [hget] at h0
              injection h0 with h0
              subst h0
              rw [hm0] at hp0
              injection hp0 with hp0
              omega) hA
        have hB2 : InvB (P ++ [rc]) commits :=
          InvB_keep P commits rc.1 rc.2 cur hcur (Or.inr (by simp [hget])) hB
        obtain ⟨c2, he, hA3, hB3⟩ := ih (P ++ [rc]) _ hparse2 hA2 hB2
        exact ⟨c2, he, happ ▸ hA3, happ ▸ hB3⟩

theorem pyInt_empty : pyInt "" = none := rfl

theorem pyInt_ne_empty {r : String} {n : Int} (h : pyInt r = some n) : r ≠ "" := by
  intro e
  subst e
  rw [pyInt_empty] at h
  exact Option.noConfusion h

/-- Characterization of the pass-1 inversion: with integer-parseable,
duplicate-free, value-injective revision keys, the derived commit →
revision map stores, for every commit, exactly the producing revision of
largest positive value, and nothing for commits with no positive-valued
producer. -/
theorem invert_char (revisions : Dict)
    (hparse : ∀ p ∈ revisions, (pyInt p.1).isSome = true)
    (hnodup : (revisions.map Prod.fst).Nodup)
    (hinj : ∀ p ∈ revisions, ∀ q ∈ revisions, pyInt p.1 = pyInt q.1 → p.1 = q.1) :
    ∃ commits, invertRevisions revisions [] = .ok commits ∧
      ∀ c r, alget commits c = some r ↔
        (alget revisions r = some c ∧ ∃ n, pyInt r = some n ∧ 0 < n ∧
          ∀ r2 n2, alget revisions r2 = some c → pyInt r2 = some n2 → n2 ≤ n) := by
  obtain ⟨commits, he, hA, hB⟩ := invert_go revisions [] [] hparse InvA_nil InvB_nil
  refine ⟨commits, he, ?_⟩
  intro c r
  constructor
  · intro h
    obtain ⟨hmem, n, hn, hpos, hmax⟩ := hA c r h
    refine ⟨(alget_eq_some_iff_mem revisions hnodup r c).mpr hmem, n, hn, hpos, ?_⟩
    intro r2 n2 hg hp
    exact hmax r2 n2 ((alget_eq_some_iff_mem revisions hnodup r2 c).mp hg) hp
  · rintro ⟨hg, n, hn, hpos, hmax⟩
    have hmem := (alget_eq_some_iff_mem revisions hnodup r c).mp hg
    cases hq : alget commits c with
    | none =>
      have hle := hB c hq r n hmem hn
      omega
    | some r3 =>
      obtain ⟨hmem3, n3, hn3, hpos3, hmax3⟩ := hA c r3 hq
      have h1 : n3 ≤ n :=
        hmax r3 n3 ((alget_eq_some_iff_mem revisions hnodup r3 c).mpr hmem3) hn3
      have h2 : n ≤ n3 := hmax3 r n hmem hn
      have he2 : r = r3 :=
        hinj (r, c) hmem (r3, c) hmem3 (by rw [hn, hn3]; congr 1; omega)
      rw [he2]

/- ------------------------------------------------------------------
Document-level lemmas for the two passes of update_branch_revision.
------------------------------------------------------------------ -/

theorem alget_eq_none_of_not_mem_keys {α : Type} (d : List (String × α)) (k : String)
    (h : k ∉ d.map Prod.fst) : alget d k = none := by
  induction d with
  | nil => rfl
  | cons p rest ih =>
    rw [List.map_cons, List.mem_cons] at h
    push_neg at h
    simp only [alget]
    rw [if_neg (by simp [Ne.symm h.1])]
    exact ih h.2

theorem alget_eq_none_of_almem_false {α : Type} (d : List (String × α)) (k : String)
    (h : almem d k = false) : alget d k = none := by
  cases hg : alget d k with
  | none => rfl
  | some v =>
    rw [almem, hg] at h
    simp at h

theorem almem_eq_of_keys {α β : Type} :
    ∀ (l : List (String × α)) (l2 : List (String × β)),
      l.map Prod.fst = l2.map Prod.fst → ∀ k, almem l k = almem l2 k := by
  intro l
  induction l with
  | nil =>
    intro l2 h k
    cases l2 with
    | nil => rfl
    | cons q r2 => exact absurd h (by simp)
  | cons p rest ih =>
    intro l2 h k
    cases l2 with
    | nil => exact absurd h (by simp)
    | cons q r2 =>
      simp only [List.map_cons, List.cons.injEq] at h
      simp only [almem, alget, h.1]
      by_cases hk : q.1 == k
      · simp [hk]
      · simp only [hk, Bool.false_eq_true, if_false]
        have hik := ih r2 h.2 k
        simpa [almem] using hik

theorem forall2_alget {α β : Type} (R : String → α → β → Prop) :
    ∀ (l : List (String × α)) (l2 : List (String × β)),
      List.Forall₂ (fun p q => q.1 = p.1 ∧ R p.1 p.2 q.2) l l2 →
      ∀ k, (alget l k = none ∧ alget l2 k = none)
        ∨ ∃ x y, alget l k = some x ∧ alget l2 k = some y ∧ R k x y := by
  intro l l2 hf
  induction hf with
  | nil => intro k; exact Or.inl ⟨rfl, rfl⟩
  | @cons p q la lb hpq hrest ih =>
    intro k
    by_cases hk : p.1 == k
    · have hk1 : p.1 = k := by simpa using hk
      have hk2 : (q.1 == k) = true := by simp [hpq.1, hk1]
      right
      exact ⟨p.2, q.2, by simp [alget, hk], by simp [alget, hk2], hk1 ▸ hpq.2⟩
    · have hkp : (p.1 == k) = false := by simpa using hk
      have hkq : (q.1 == k) = false := by rw [hpq.1]; exact hkp
      simp only [alget, hkp, hkq, Bool.false_eq_true, if_false]
      exact ih k

theorem forall2_keys {α β : Type} (R : String → α → β → Prop) :
    ∀ (l : List (String × α)) (l2 : List (String × β)),
      List.Forall₂ (fun p q => q.1 = p.1 ∧ R p.1 p.2 q.2) l l2 →
      l2.map Prod.fst = l.map Prod.fst := by
  intro l l2 hf
  induction hf with
  | nil => rfl
  | @cons p q la lb hpq hrest ih => simp [hpq.1, ih]

theorem commitRevisionPass_ok :
    ∀ revDoc : Doc,
      (∀ q ∈ revDoc, ∃ cm, invertRevisions q.2 [] = .ok cm) →
      ∃ cr, commitRevisionPass revDoc = .ok cr
        ∧ List.Forall₂ (fun q p => p.1 = q.1 ∧ invertRevisions q.2 [] = .ok p.2) revDoc cr := by
  intro revDoc
  induction revDoc with
  | nil =>
    intro _
    exact ⟨[], rfl, List.Forall₂.nil⟩
  | cons q rest ih =>
    intro h
    obtain ⟨cm, hcm⟩ := h q (List.mem_cons_self q rest)
    obtain ⟨tail, htail, hf⟩ := ih (fun p hp => h p (List.mem_cons_of_mem q hp))
    refine ⟨(q.1, cm) :: tail, ?_, List.Forall₂.cons ⟨rfl, hcm⟩ hf⟩
    simp only [commitRevisionPass, hcm, htail]

theorem deriveCharmLoop_empty (cr : Doc) (charm : String) (dbr : Dict) :
    deriveCharmLoop cr charm [] dbr = .ok dbr := rfl

theorem deriveCharmLoop_err (cr : Doc) (charm : String) (bc : String × String)
    (rest dbr : Dict) (hc : alget cr charm = none) :
    deriveCharmLoop cr charm (bc :: rest) dbr = .error .keyError := by
  simp only [deriveCharmLoop, hc]

theorem deriveCharmLoop_total (cr : Doc) (charm : String) (commits : Dict)
    (hc : alget cr charm = some commits) :
    ∀ (bcMap dbr : Dict), ∃ out, deriveCharmLoop cr charm bcMap dbr = .ok out := by
  intro bcMap
  induction bcMap with
  | nil =>
    intro dbr
    exact ⟨dbr, rfl⟩
  | cons bc rest ih =>
    intro dbr
    obtain ⟨out, ho⟩ := ih
      (if (alget commits bc.2).getD "" ≠ ""
        then alset dbr bc.1 ((alget commits bc.2).getD "") else dbr)
    refine ⟨out, ?_⟩
    simp only [deriveCharmLoop, hc]
    exact ho

theorem deriveCharmLoop_error_keyError (cr : Doc) (charm : String) :
    ∀ (bcMap dbr : Dict) (e : PyErr),
      deriveCharmLoop cr charm bcMap dbr = .error e → e = .keyError := by
  cases hc : alget cr charm with
  | none =>
    intro bcMap dbr e h
    cases bcMap with
    | nil => exact Except.noConfusion h
    | cons bc rest =>
      rw [deriveCharmLoop_err cr charm bc rest dbr hc] at h
      injection h with h
      exact h.symm
  | some commits =>
    intro bcMap
    induction bcMap with
    | nil =>
      intro dbr e h
      exact Except.noConfusion h
    | cons bc rest ih =>
      intro dbr e h
      simp only [deriveCharmLoop, hc] at h
      exact ih _ e h

theorem deriveCharmLoop_char (cr : Doc) (charm : String) (commits : Dict)
    (hc : alget cr charm = some commits) :
    ∀ (bcMap dbr : Dict), (bcMap.map Prod.fst).Nodup →
      (∀ bc ∈ bcMap, alget dbr bc.1 = none) →
      ∃ out, deriveCharmLoop cr charm bcMap dbr = .ok out ∧
        ∀ b, alget out b =
          match alget bcMap b with
          | none => alget dbr b
          | some commit =>
            match alget commits commit with
            | none => none
            | some r => if r = "" then none else some r := by
  intro bcMap
  induction bcMap with
  | nil =>
    intro dbr _ _
    exact ⟨dbr, rfl, fun b => rfl⟩
  | cons bc rest ih =>
    intro dbr hnd hdisj
    rw [List.map_cons, List.nodup_cons] at hnd
    have hdisj2 : ∀ bc2 ∈ rest,
        alget (if (alget commits bc.2).getD "" ≠ ""
          then alset dbr bc.1 ((alget commits bc.2).getD "") else dbr) bc2.1 = none := by
      intro bc2 hb2
      have hne : bc2.1 ≠ bc.1 := by
        intro e
        exact hnd.1 (e ▸ List.mem_map_of_mem Prod.fst hb2)
      by_cases hg : (alget commits bc.2).getD "" ≠ ""
      · rw [if_pos hg, alget_alset_ne dbr bc.1 bc2.1 _ hne]
        exact hdisj bc2 (List.mem_cons_of_mem bc hb2)
      · rw [if_neg hg]
        exact hdisj bc2 (List.mem_cons_of_mem bc hb2)
    obtain ⟨out, ho, hchar⟩ := ih _ hnd.2 hdisj2
    refine ⟨out, ?_, ?_⟩
    · simp only [deriveCharmLoop, hc]
      exact ho
    · intro b
      rw [hchar b]
      by_cases hb : bc.1 = b
      · subst hb
        have hrn : alget rest bc.1 = none := alget_eq_none_of_not_mem_keys rest bc.1 hnd.1
        have hhead : alget (bc :: rest) bc.1 = some bc.2 := by simp [alget]
        simp only [hrn, hhead]
        cases hg : alget commits bc.2 with
        | none =>
          rw [if_neg (by simp [hg])]
          exact hdisj bc (List.mem_cons_self bc rest)
        | some r =>
          by_cases hr : r = ""
          · rw [if_neg (by simp [hg, hr])]
            simp [hdisj bc (List.mem_cons_self bc rest), hr]
          · rw [if_pos (by simp [hg, hr]), alget_alset_self]
            simp [hg, hr]
      · have hcons : alget (bc :: rest) b = alget rest b := by
          simp [alget, hb]
        rw [hcons]
        cases hg : alget rest b with
        | some commit => rfl
        | none =>
          by_cases hgd : (alget commits bc.2).getD "" ≠ ""
          · rw [if_pos hgd, alget_alset_ne dbr bc.1 b _ (fun e => hb e.symm)]
          · rw [if_neg hgd]

theorem branchRevisionPass_ok (cr : Doc) :
    ∀ bcDoc : Doc,
      (∀ p ∈ bcDoc, ∃ d, deriveCharmLoop cr p.1 p.2 [] = .ok d) →
      ∃ out, branchRevisionPass cr bcDoc = .ok out
        ∧ List.Forall₂ (fun p q => q.1 = p.1 ∧ deriveCharmLoop cr p.1 p.2 [] = .ok q.2)
            bcDoc out := by
  intro bcDoc
  induction bcDoc with
  | nil =>
    intro _
    exact ⟨[], rfl, List.Forall₂.nil⟩
  | cons p rest ih =>
    intro h
    obtain ⟨d, hd⟩ := h p (List.mem_cons_self p rest)
    obtain ⟨tail, htail, hf⟩ := ih (fun p2 hp2 => h p2 (List.mem_cons_of_mem p hp2))
    refine ⟨(p.1, d) :: tail, ?_, List.Forall₂.cons ⟨rfl, hd⟩ hf⟩
    simp only [branchRevisionPass, hd, htail]

theorem branchRevisionPass_err (cr : Doc) :
    ∀ bcDoc : Doc,
      (∃ p, p ∈ bcDoc ∧ p.2 ≠ [] ∧ alget cr p.1 = none) →
      branchRevisionPass cr bcDoc = .error .keyError := by
  intro bcDoc
  induction bcDoc with
  | nil =>
    rintro ⟨p, hp, _, _⟩
    exact absurd hp (List.not_mem_nil p)
  | cons p0 rest ih =>
    rintro ⟨p, hp, hne, hmiss⟩
    rcases List.mem_cons.mp hp with hp | hp
    · subst hp
      cases hp2 : p.2 with
      | nil => exact absurd hp2 hne
      | cons bc r2 =>
        simp only [branchRevisionPass, hp2, deriveCharmLoop_err cr p.1 bc r2 [] hmiss]
    · cases hd : deriveCharmLoop cr p0.1 p0.2 [] with
      | error e =>
        have he := deriveCharmLoop_error_keyError cr p0.1 p0.2 [] e hd
        subst he
        simp only [branchRevisionPass, hd]
      | ok d =>
        simp only [branchRevisionPass, hd, ih ⟨p, hp, hne, hmiss⟩]

theorem branchRevisionPass_ok_keys (cr : Doc) :
    ∀ (bcDoc out : Doc), branchRevisionPass cr bcDoc = .ok out →
      ∀ p ∈ bcDoc, p.2 ≠ [] → almem cr p.1 = true := by
  intro bcDoc
  induction bcDoc with
  | nil =>
    intro out _ p hp _
    exact absurd hp (List.not_mem_nil p)
  | cons p0 rest ih =>
    intro out h p hp hne
    cases hd : deriveCharmLoop cr p0.1 p0.2 [] with
    | error e =>
      simp only [branchRevisionPass, hd] at h
      exact Except.noConfusion h
    | ok d =>
      cases ht : branchRevisionPass cr rest with
      | error e =>
        simp only [branchRevisionPass, hd, ht] at h
        exact Except.noConfusion h
      | ok tail =>
        rcases List.mem_cons.mp hp with hp | hp
        · subst hp
          cases hc : alget cr p.1 with
          | none =>
            cases hp2 : p.2 with
            | nil => exact absurd hp2 hne
            | cons bc r2 =>
              rw [hp2, deriveCharmLoop_err cr p.1 bc r2 [] hc] at hd
              exact Except.noConfusion hd
          | some commits => simp [almem, hc]
        · exact ih tail ht p hp hne

theorem mem_of_alget_eq_some {α : Type} (d : List (String × α)) (k : String) (v : α)
    (h : alget d k = some v) : (k, v) ∈ d := by
  induction d with
  | nil => exact Option.noConfusion h
  | cons p rest ih =>
    by_cases hp : p.1 == k
    · have hpk : p.1 = k := by simpa using hp
      simp only [alget] at h
      rw [if_pos hp] at h
      injection h with h
      cases p with
      | mk a b =>
        simp only at hpk h
        subst hpk
        subst h
        exact List.mem_cons_self _ _
    · simp only [alget, hp, Bool.false_eq_true, if_false] at h
      exact List.mem_cons_of_mem p (ih h)

theorem commitRevisionPass_keys :
    ∀ (revDoc cr : Doc), commitRevisionPass revDoc = .ok cr →
      cr.map Prod.fst = revDoc.map Prod.fst := by
  intro revDoc
  induction revDoc with
  | nil =>
    intro cr h
    injection h with h
    rw [← h]
  | cons q rest ih =>
    intro cr h
    cases hi : invertRevisions q.2 [] with
    | error e =>
      simp only [commitRevisionPass, hi] at h
      exact Except.noConfusion h
    | ok commits =>
      cases ht : commitRevisionPass rest with
      | error e =>
        simp only [commitRevisionPass, hi, ht] at h
        exact Except.noConfusion h
      | ok tail =>
        simp only [commitRevisionPass, hi, ht] at h
        injection h with h
        rw [← h]
        simp [ih tail ht]

/-- C10 (counterexample): a component present in BranchCommitMap with an
empty branch map and absent from RevisionCommitMap does not raise: the
`OPENSTACK_CHARMS_COMMIT_REVISION[charm]` indexing sits inside the
per-branch loop, so the derivation succeeds and writes the document,
contradicting the claim that any such input raises `KeyError`. -/
theorem update_branch_revision_empty_branch_map_cex :
    update_branch_revision [] [("cinder", [])] = .ok [("cinder", [])] := rfl

/-- C10 (amended): Pass C succeeds only when every component of the
branch-commit document that has at least one branch entry also appears in
the revision-commit document; and when every revision key parses as an
integer (so pass 1 does not raise `ValueError` first) and some component
with a non-empty branch map is absent from the revision-commit document,
the derivation raises `KeyError`, leaving the document unwritten. -/
theorem update_branch_revision_keyerror (revDoc bcDoc : Doc) :
    (∀ out, update_branch_revision revDoc bcDoc = .ok out →
      ∀ p ∈ bcDoc, p.2 ≠ [] → almem revDoc p.1 = true)
    ∧ ((∀ q ∈ revDoc, ∀ rc ∈ q.2, (pyInt rc.1).isSome = true) →
        (∃ p, p ∈ bcDoc ∧ p.2 ≠ [] ∧ almem revDoc p.1 = false) →
        update_branch_revision revDoc bcDoc = .error .keyError) := by
  constructor
  · intro out h p hp hne
    cases hcr : commitRevisionPass revDoc with
    | error e =>
      simp only [update_branch_revision, hcr] at h
      exact Except.noConfusion h
    | ok cr =>
      simp only [update_branch_revision, hcr] at h
      have hk := branchRevisionPass_ok_keys cr bcDoc out h p hp hne
      have heq := almem_eq_of_keys revDoc cr
        (commitRevisionPass_keys revDoc cr hcr).symm p.1
      rw [heq]
      exact hk
  · intro hparse h2
    obtain ⟨p, hp, hne, hmiss⟩ := h2
    have hpre : ∀ q ∈ revDoc, ∃ cm, invertRevisions q.2 [] = .ok cm := by
      intro q hq
      obtain ⟨cm, hcm, _, _⟩ := invert_go q.2 [] [] (hparse q hq) InvA_nil InvB_nil
      exact ⟨cm, hcm⟩
    obtain ⟨cr, hcr, _⟩ := commitRevisionPass_ok revDoc hpre
    simp only [update_branch_revision, hcr]
    apply branchRevisionPass_err
    refine ⟨p, hp, hne, ?_⟩
    apply alget_eq_none_of_almem_false
    rw [almem_eq_of_keys cr revDoc (commitRevisionPass_keys revDoc cr hcr) p.1]
    exact hmiss

/-- C10 (witness): a component with a branch entry that is absent from the
revision-commit document raises `KeyError`. -/
theorem update_branch_revision_keyerror_witness :
    update_branch_revision [] [("x", [("b", "C")])] = .error .keyError :=
  (update_branch_revision_keyerror [] [("x", [("b", "C")])]).2
    (fun q hq => absurd hq (List.not_mem_nil q))
    ⟨("x", [("b", "C")]), List.mem_singleton_self _, by simp, rfl⟩

/-- C1 (counterexample): with revision→commit entries {"0": "Y"} and a
branch pointing at commit "Y", the claim's own derivation resolves "Y"
to its numerically largest producing revision "0" and keeps the branch,
but the code omits the branch: the `commits.get(commit, 0)` default makes
the `0 > 0` comparison false, so revision "0" is never recorded. -/
theorem update_branch_revision_rev0_cex :
    update_branch_revision [("c", [("0", "Y")])] [("c", [("b", "Y")])] = .ok [("c", [])]
    ∧ claimedUpdateBranchRevision [("c", [("0", "Y")])] [("c", [("b", "Y")])] =
        [("c", [("b", "0")])]
    ∧ ([("c", [])] : Doc) ≠ [("c", [("b", "0")])] :=
  ⟨rfl, rfl, by decide⟩

/-- C1 (amended): Pass C inverts each component's revision→commit map
keeping, for every commit, the producing revision of numerically largest
value provided that value is positive (a commit whose only producers have
value 0 is dropped by the `commits.get(commit, 0)` default), then maps
each branch through its commit; a branch whose commit has no such
positive resolved revision is omitted.  Stated for well-formed persisted
documents: branch-map components present in the revision document,
integer-parseable, duplicate-free, value-injective revision keys, and
duplicate-free branch keys. -/
theorem update_branch_revision_max_producer (revDoc bcDoc : Doc)
    (hkeys : ∀ p ∈ bcDoc, almem revDoc p.1 = true)
    (hparse : ∀ q ∈ revDoc, ∀ rc ∈ q.2, (pyInt rc.1).isSome = true)
    (hnodup : ∀ q ∈ revDoc, (q.2.map Prod.fst).Nodup)
    (hinj : ∀ q ∈ revDoc, ∀ rc ∈ q.2, ∀ rc2 ∈ q.2, pyInt rc.1 = pyInt rc2.1 → rc.1 = rc2.1)
    (hbn : ∀ p ∈ bcDoc, (p.2.map Prod.fst).Nodup) :
    (∃ out, update_branch_revision revDoc bcDoc = .ok out)
    ∧ ∀ out, update_branch_revision revDoc bcDoc = .ok out →
        out.map Prod.fst = bcDoc.map Prod.fst
        ∧ ∀ charm bcMap revisions outMap,
            alget bcDoc charm = some bcMap → alget revDoc charm = some revisions →
            alget out charm = some outMap →
            ∀ branch r, alget outMap branch = some r ↔
              ∃ commit, alget bcMap branch = some commit
                ∧ alget revisions r = some commit
                ∧ ∃ n, pyInt r = some n ∧ 0 < n
                ∧ ∀ r2 n2, alget revisions r2 = some commit → pyInt r2 = some n2 → n2 ≤ n := by
  have hpre1 : ∀ q ∈ revDoc, ∃ cm, invertRevisions q.2 [] = .ok cm := by
    intro q hq
    obtain ⟨cm, hcm, _, _⟩ := invert_go q.2 [] [] (hparse q hq) InvA_nil InvB_nil
    exact ⟨cm, hcm⟩
  obtain ⟨cr, hcr, hf1⟩ := commitRevisionPass_ok revDoc hpre1
  have halign1 := forall2_alget
    (fun _charm revisions commits => invertRevisions revisions [] = .ok commits) revDoc cr hf1
  have hpre2 : ∀ p ∈ bcDoc, ∃ d, deriveCharmLoop cr p.1 p.2 [] = .ok d := by
    intro p hp
    rcases halign1 p.1 with ⟨hn1, _⟩ | ⟨x, y, hx, hy, _⟩
    · have hk := hkeys p hp
      rw [almem, hn1] at hk
      simp at hk
    · exact deriveCharmLoop_total cr p.1 y hy p.2 []
  obtain ⟨out0, hout0, hf2⟩ := branchRevisionPass_ok cr bcDoc hpre2
  have hup : update_branch_revision revDoc bcDoc = .ok out0 := by
    simp only [update_branch_revision, hcr]
    exact hout0
  constructor
  · exact ⟨out0, hup⟩
  · intro out h
    have hoo : out = out0 := by
      rw [hup] at h
      injection h with h
      exact h.symm
    subst hoo
    constructor
    · exact forall2_keys (fun ch x y => deriveCharmLoop cr ch x [] = .ok y) bcDoc out hf2
    · intro charm bcMap revisions outMap hb hr ho branch r
      have halign2 := forall2_alget
        (fun ch x y => deriveCharmLoop cr ch x [] = .ok y) bcDoc out hf2
      rcases halign2 charm with ⟨hn1, _⟩ | ⟨x, y, hx, hy, hR⟩
      · rw [hb] at hn1
        exact Option.noConfusion hn1
      rw [hb] at hx
      injection hx with hx
      subst hx
      rw [ho] at hy
      injection hy with hy
      subst hy
      rcases halign1 charm with ⟨hn1, _⟩ | ⟨x2, commits, hx2, hy2, hR2⟩
      · rw [hr] at hn1
        exact Option.noConfusion hn1
      rw [hr] at hx2
      injection hx2 with hx2
      subst hx2
      have hqmem := mem_of_alget_eq_some revDoc charm revisions hr
      obtain ⟨commits2, hc2, hchar⟩ := invert_char revisions
        (fun p2 hp2 => hparse (charm, revisions) hqmem p2 hp2)
        (hnodup (charm, revisions) hqmem)
        (fun p2 hp2 q2 hq2 => hinj (charm, revisions) hqmem p2 hp2 q2 hq2)
      rw [hR2] at hc2
      injection hc2 with hc2
      subst hc2
      have hbmem := mem_of_alget_eq_some bcDoc charm bcMap hb
      obtain ⟨out2, hout2, hcharL⟩ := deriveCharmLoop_char cr charm commits hy2 bcMap []
        (hbn (charm, bcMap) hbmem) (fun bc _ => rfl)
      rw [hR] at hout2
      injection hout2 with hout2
      subst hout2
      have hL := hcharL branch
      cases hgb : alget bcMap branch with
      | none =>
        simp only [hgb] at hL
        constructor
        · intro hsome
          rw [hL] at hsome
          exact Option.noConfusion hsome
        · rintro ⟨commit, hcm, _⟩
          exact Option.noConfusion hcm
      | some commit0 =>
        simp only [hgb] at hL
        cases hgc : alget commits commit0 with
        | none =>
          simp only [hgc] at hL
          constructor
          · intro hsome
            rw [hL] at hsome
            exact Option.noConfusion hsome
          · rintro ⟨commit2, hcm, hgr, n, hn, hpos, hmax⟩
            injection hcm with hcm
            subst hcm
            have hcontra := (hchar commit0 r).mpr ⟨hgr, n, hn, hpos, hmax⟩
            rw [hgc] at hcontra
            exact Option.noConfusion hcontra
        | some r3 =>
          simp only [hgc] at hL
          obtain ⟨hgr3, n3, hn3, hpos3, hmax3⟩ := (hchar commit0 r3).mp hgc
          rw [if_neg (pyInt_ne_empty hn3)] at hL
          constructor
          · intro hsome
            rw [hL] at hsome
            injection hsome with hsome
            subst hsome
            exact ⟨commit0, rfl, hgr3, n3, hn3, hpos3, hmax3⟩
          · rintro ⟨commit2, hcm, hgr, n, hn, hpos, hmax⟩
            injection hcm with hcm
            subst hcm
            have hr3 := (hchar commit0 r).mpr ⟨hgr, n, hn, hpos, hmax⟩
            rw [hgc] at hr3
            injection hr3 with hr3
            rw [hL, hr3]

/-- C1 (witness): the amended derivation on the spec's example documents
reproduces the branch-commit document's component keys. -/
theorem update_branch_revision_max_producer_witness :
    ([("cinder", [("20.05", "10")])] : Doc).map Prod.fst =
      ([("cinder", [("20.05", "C1")])] : Doc).map Prod.fst :=
  ((update_branch_revision_max_producer
      [("cinder", [("10", "C1"), ("9", "C0")])] [("cinder", [("20.05", "C1")])]
      (by decide) (by decide) (by decide) (by decide) (by decide)).2
    [("cinder", [("20.05", "10")])] rfl).1
